import Mathlib

/-!
Verification development for the yFinData market-data ingestion utility.

The Python sources under `src/lib/yFinData/src` are shallowly embedded:

* Calendar dates are modelled as proleptic-Gregorian day numbers (`Int`),
  exactly the value `datetime.toordinal()` computes; `dateVal y m d` is the
  day number of the date written `"YYYY-MM-DD"`. With this encoding,
  `timedelta(days = 1)` is `+ 1` and `(next - current).days` is subtraction.
  `MAX(date)` and `ORDER BY date ASC` on the `TEXT` column agree with the
  numeric order because the stored strings are fixed-width `YYYY-MM-DD`.
* A SQLite table with a `UNIQUE(key, date)` constraint is a list of rows;
  `INSERT OR REPLACE` first deletes every conflicting row, then appends the
  new one, and `DELETE WHERE key = ? AND date = ?` filters rows out.
* The `yfinance` provider is an oracle `hist : String → Int → List (Int × RawBar)`
  giving the bars returned by `ticker.history(start=...)`, and
  `peInfo : String → PEInfo` giving `ticker.info.get("trailingPE")`.
* Prices are modelled as rationals; the float NaN sentinel used for a missing
  trailing P/E is the explicit constructor `PEVal.nan`, and SQL `NULL` is
  `Option.none`.
-/

/-- Day number of the proleptic-Gregorian date `y-m-d` (as in
Python's `datetime.toordinal`): day 1 is 0001-01-01. -/
def isLeapYear (y : Nat) : Bool :=
  (y % 4 == 0 && y % 100 != 0) || y % 400 == 0

/-- Days in the months strictly before month `m` of a non-leap year. -/
def daysBeforeMonth (m : Nat) : Nat :=
  [0, 31, 59, 90, 120, 151, 181, 212, 243, 273, 304, 334].getD (m - 1) 0

/-- The day number of the date `"y-m-d"`, the value `datetime.strptime(s, "%Y-%m-%d")`
denotes in day units. -/
def dateVal (y m d : Nat) : Int :=
  ((365 * (y - 1) + (y - 1) / 4 - (y - 1) / 100 + (y - 1) / 400)
    + (daysBeforeMonth m + (if isLeapYear y && m > 2 then 1 else 0)) + d : Nat)

/-! ## Table store

`database.create_database` declares `stocks(symbol, date, …, UNIQUE(symbol, date))`
and `national_debt(nation, date, yield, UNIQUE(nation, date))`. Both tables are
instances of one shape: a textual key, a date and a payload. `Row.key` is
`symbol` for the stocks table and `nation` for the national-debt table. -/

structure Row (α : Type) where
  key : String
  date : Int
  val : α
  deriving DecidableEq, Repr

abbrev Table (α : Type) : Type := List (Row α)

namespace Table

/-- Upsert: `INSERT OR REPLACE INTO t VALUES r` under `UNIQUE(key, date)`: SQLite
deletes every row conflicting on `(key, date)` and then inserts `r`. -/
def upsert (t : Table α) (r : Row α) : Table α :=
  (List.filter (fun x => !(x.key = r.key && x.date = r.date)) t) ++ [r]

/-- Row deletion: `DELETE FROM t WHERE key = k AND date = d`. -/
def erase (t : Table α) (k : String) (d : Int) : Table α :=
  List.filter (fun x => !(x.key = k && x.date = d)) t

/-- The rows stored for key `k`. -/
def rowsFor (t : Table α) (k : String) : Table α :=
  List.filter (fun x => x.key = k) t

/-- The rows stored for the pair `(k, d)`. -/
def rowsAt (t : Table α) (k : String) (d : Int) : Table α :=
  List.filter (fun x => x.key = k && x.date = d) t

/-- The rows for key `k` whose date is strictly before `L`. -/
def olderRows (t : Table α) (k : String) (L : Int) : Table α :=
  List.filter (fun x => x.key = k && x.date < L) t

/-- The dates stored for key `k` (`SELECT date FROM t WHERE key = k`). -/
def datesFor (t : Table α) (k : String) : List Int :=
  List.map (fun r => r.date) (rowsFor t k)

/-- Latest stored date: `SELECT MAX(date) FROM t WHERE key = k`; `none` when no row exists. -/
def latestDate (t : Table α) (k : String) : Option Int :=
  match datesFor t k with
  | [] => none
  | d :: ds => some (List.foldl max d ds)

/-- The table-store invariant: no two rows share a `(key, date)` pair. -/
def Uniq (t : Table α) : Prop :=
  List.Pairwise (fun a b => ¬(a.key = b.key ∧ a.date = b.date)) t

end Table

/-! ## Gap detection

`_get_missing_date_ranges_stock` and `_get_missing_date_ranges_debt`
(`get_stock/update.py`) both run `SELECT date … ORDER BY date ASC`, return `[]`
when no rows exist, and otherwise scan consecutive pairs of the resulting
ascending date list. The two bodies are embedded separately, each as the pure
function of the fetched ascending date list. -/

/-- The consecutive-pair scan of `_get_missing_date_ranges_stock`:
`for i in range(len(dates) - 1)`, appending `(current+1, next-1)` whenever
`(next - current).days > 1`. -/
def stockGapScan : List Int → List (Int × Int)
  | current :: next :: rest =>
      (if next - current > 1 then [(current + 1, next - 1)] else [])
        ++ stockGapScan (next :: rest)
  | _ => []

/-- The function `_get_missing_date_ranges_stock`, as a function of the ascending list of
stored dates for the symbol (the result of its `SELECT … ORDER BY date ASC`). -/
def get_missing_date_ranges_stock (dates : List Int) : List (Int × Int) :=
  match dates with
  | [] => []
  | _ => stockGapScan dates

/-- The consecutive-pair scan of `_get_missing_date_ranges_debt` (a second,
textually duplicated loop in the source). -/
def debtGapScan : List Int → List (Int × Int)
  | current :: next :: rest =>
      (if next - current > 1 then [(current + 1, next - 1)] else [])
        ++ debtGapScan (next :: rest)
  | _ => []

/-- The function `_get_missing_date_ranges_debt`, as a function of the ascending list of
stored dates for the nation. -/
def get_missing_date_ranges_debt (dates : List Int) : List (Int × Int) :=
  match dates with
  | [] => []
  | _ => debtGapScan dates

/-! ## Provider adapter (`get_stock/stock_struct.py`, `constants.py`) -/

/-- A price bar as returned by `ticker.history`: the Open/Close/Low/High/Volume
columns of one row. -/
structure RawBar where
  «open» : ℚ
  close : ℚ
  low : ℚ
  high : ℚ
  volume : Int
  deriving DecidableEq, Repr

/-- What `ticker.info.get("trailingPE")` yields: a number, a non-numeric value,
or nothing. -/
inductive PEInfo where
  | num (q : ℚ)
  | nonNum
  | absent
  deriving DecidableEq, Repr

/-- A float that is either the NaN sentinel or an actual number. -/
inductive PEVal where
  | nan
  | val (q : ℚ)
  deriving DecidableEq, Repr

/-- The snapshot P/E computed by `capture_stock`: `float("nan")` when
`trailingPE` is absent or not an `int`/`float`, else the number itself. -/
def peSnapshot : PEInfo → PEVal
  | PEInfo.num q => PEVal.val q
  | PEInfo.nonNum => PEVal.nan
  | PEInfo.absent => PEVal.nan

/-- The value bound into the SQL `pe` column:
`None if isnan(price.pe) else price.pe`. -/
def storedPE : PEVal → Option ℚ
  | PEVal.nan => none
  | PEVal.val q => some q

/-- A fetched price point (`Price` dataclass of `stock_struct.py`). -/
structure Price where
  «open» : ℚ
  close : ℚ
  low : ℚ
  high : ℚ
  volume : Int
  pe : PEVal
  deriving DecidableEq, Repr

/-- The `Stock` dataclass: name plus the date-indexed price series. -/
structure Stock where
  name : String
  data : List (Int × Price)
  deriving DecidableEq, Repr

/-- The `NationDebt` dataclass: date-indexed closing yields. -/
structure NationDebt where
  data : List (Int × ℚ)
  deriving DecidableEq, Repr

/-- The provider oracle: `hist name start` is the bar series
`yf.Ticker(name).history(start=start, end=now)` returns. -/
def HistOracle : Type := String → Int → List (Int × RawBar)

/-- The `TREASURY_SYMBOLS` mapping of `constants.py`. -/
def TREASURY_SYMBOLS : List (String × String) :=
  [("US", "^TNX"), ("USA", "^TNX"), ("United States", "^TNX")]

/-- The nation-to-proxy-instrument resolution in `capture_national_debt`:
`TREASURY_SYMBOLS.get(nation, "^TNX")`. -/
def resolveNationProxy (nation : String) : String :=
  (TREASURY_SYMBOLS.lookup nation).getD "^TNX"

/-- The provider call `capture_stock name start`: fetch the history from `start`, take the
trailing-P/E snapshot once, and build every `Price` with that same snapshot. -/
def capture_stock (hist : HistOracle) (peInfo : String → PEInfo)
    (name : String) (start : Int) : Stock :=
  { name := name
    data := List.map
      (fun p => (p.1,
        { «open» := p.2.«open», close := p.2.close, low := p.2.low,
          high := p.2.high, volume := p.2.volume,
          pe := peSnapshot (peInfo name) }))
      (hist name start) }

/-- The provider call `capture_national_debt nation start`: resolve the proxy symbol, fetch its
history from `start`, and keep each bar's closing value as the yield. -/
def capture_national_debt (hist : HistOracle)
    (nation : String) (start : Int) : NationDebt :=
  { data := List.map (fun p => (p.1, p.2.close))
      (hist (resolveNationProxy nation) start) }

/-! ## Configuration and database state -/

/-- One TOML entry of the `stocks` or `national_debt` list: `name`,
`start_date` (parsed to a day number) and the advisory `end_date`, which the
update paths never read. -/
structure ConfigEntry where
  name : String
  start_date : Int
  end_date : Option Int
  deriving DecidableEq, Repr

/-- The parsed TOML configuration: the `stocks` and `national_debt` lists. -/
structure Config where
  stocks : List ConfigEntry
  national_debt : List ConfigEntry
  deriving DecidableEq, Repr

/-- The stored metric columns of one `stocks` row
(`open, close, high, low, volume, pe`); `pe = none` is SQL `NULL`. -/
structure StockMetrics where
  «open» : ℚ
  close : ℚ
  high : ℚ
  low : ℚ
  volume : Int
  pe : Option ℚ
  deriving DecidableEq, Repr

/-- The database: the `stocks` table and the `national_debt` table. -/
structure DB where
  stocks : Table StockMetrics
  national_debt : Table ℚ
  deriving DecidableEq, Repr

/-- The empty database, as `create_database` leaves it. -/
def emptyDB : DB := { stocks := [], national_debt := [] }

/-- One `INSERT OR REPLACE INTO stocks …` row built from a fetched price:
symbol is `stock_data.name`, and `pe` goes through the NaN-to-NULL check. -/
def stockRowOf (name : String) (p : Int × Price) : Row StockMetrics :=
  { key := name, date := p.1,
    val := { «open» := p.2.«open», close := p.2.close, high := p.2.high,
             low := p.2.low, volume := p.2.volume, pe := storedPE p.2.pe } }

/-- The insertion loop `for date, price in stock_data.data.items(): INSERT OR
REPLACE INTO stocks …`, shared by `utils._process_stock_data` and
`update.update_missing_data`. -/
def upsertStockSeries (t : Table StockMetrics) (sd : Stock) : Table StockMetrics :=
  List.foldl (fun acc p => Table.upsert acc (stockRowOf sd.name p)) t sd.data

/-- The insertion loop `for date, yield_value in debt_data.data.items():
INSERT OR REPLACE INTO national_debt …`; the key is the entry's `name`. -/
def upsertDebtSeries (t : Table ℚ) (name : String) (dd : NationDebt) : Table ℚ :=
  List.foldl (fun acc p => Table.upsert acc { key := name, date := p.1, val := p.2 }) t dd.data

/-! ## Full capture (`utils.process_toml_config` / `database.capture_data`) -/

/-- The function `utils._process_stock_data`: capture from the entry's `start_date` and
insert every returned point. -/
def process_stock_data (hist : HistOracle) (peInfo : String → PEInfo)
    (t : Table StockMetrics) (e : ConfigEntry) : Table StockMetrics :=
  upsertStockSeries t (capture_stock hist peInfo e.name e.start_date)

/-- The function `utils._process_national_debt_data`. -/
def process_national_debt_data (hist : HistOracle)
    (t : Table ℚ) (e : ConfigEntry) : Table ℚ :=
  upsertDebtSeries t e.name (capture_national_debt hist e.name e.start_date)

/-- The command core `database.capture_data`: full capture of every tracked entry, stocks first,
then national debt (`process_toml_config` with no preprocessing). -/
def capture_data (hist : HistOracle) (peInfo : String → PEInfo)
    (cfg : Config) (db : DB) : DB :=
  { stocks := List.foldl (process_stock_data hist peInfo) db.stocks cfg.stocks
    national_debt :=
      List.foldl (process_national_debt_data hist) db.national_debt cfg.national_debt }

/-! ## Incremental append (`update.update_missing_data`) -/

/-- The per-stock body of `update_missing_data`: look up `MAX(date)`; when a
latest date exists, fetch from `latest + 1 day` and insert the results; when
none exists, the `if latest_date_str:` guard skips the entry. -/
def updateMissingStockStep (hist : HistOracle) (peInfo : String → PEInfo)
    (t : Table StockMetrics) (e : ConfigEntry) : Table StockMetrics :=
  match Table.latestDate t e.name with
  | none => t
  | some latest => upsertStockSeries t (capture_stock hist peInfo e.name (latest + 1))

/-- The per-nation body of `update_missing_data`. -/
def updateMissingDebtStep (hist : HistOracle)
    (t : Table ℚ) (e : ConfigEntry) : Table ℚ :=
  match Table.latestDate t e.name with
  | none => t
  | some latest =>
      upsertDebtSeries t e.name (capture_national_debt hist e.name (latest + 1))

/-- The incremental append `update.update_missing_data`: process every stock entry, then every
national-debt entry. -/
def update_missing_data (hist : HistOracle) (peInfo : String → PEInfo)
    (cfg : Config) (db : DB) : DB :=
  { stocks := List.foldl (updateMissingStockStep hist peInfo) db.stocks cfg.stocks
    national_debt :=
      List.foldl (updateMissingDebtStep hist) db.national_debt cfg.national_debt }

/-! ## Destructive refresh (`update.update_data`) -/

/-- The function `update._update_stock_preprocess`: when a latest date exists, delete that
single row and move the entry's `start_date` to it; otherwise return the entry
unchanged. -/
def update_stock_preprocess (t : Table StockMetrics) (e : ConfigEntry) :
    Table StockMetrics × ConfigEntry :=
  match Table.latestDate t e.name with
  | none => (t, e)
  | some latest => (Table.erase t e.name latest, { e with start_date := latest })

/-- The function `update._update_debt_preprocess` (same shape on the national-debt table). -/
def update_debt_preprocess (t : Table ℚ) (e : ConfigEntry) :
    Table ℚ × ConfigEntry :=
  match Table.latestDate t e.name with
  | none => (t, e)
  | some latest => (Table.erase t e.name latest, { e with start_date := latest })

/-- One stock entry of `update_data`: preprocess, then `_process_stock_data`
on the adjusted entry. -/
def updateDataStockStep (hist : HistOracle) (peInfo : String → PEInfo)
    (t : Table StockMetrics) (e : ConfigEntry) : Table StockMetrics :=
  let pre := update_stock_preprocess t e
  process_stock_data hist peInfo pre.1 pre.2

/-- One national-debt entry of `update_data`. -/
def updateDataDebtStep (hist : HistOracle)
    (t : Table ℚ) (e : ConfigEntry) : Table ℚ :=
  let pre := update_debt_preprocess t e
  process_national_debt_data hist pre.1 pre.2

/-- The destructive refresh `update.update_data` over every tracked entry. -/
def update_data (hist : HistOracle) (peInfo : String → PEInfo)
    (cfg : Config) (db : DB) : DB :=
  { stocks := List.foldl (updateDataStockStep hist peInfo) db.stocks cfg.stocks
    national_debt :=
      List.foldl (updateDataDebtStep hist) db.national_debt cfg.national_debt }

/-! ## The Add command (`cli/add.py`) -/

/-- One entry of the TOML `stocks` list as `add_command` manipulates it
(dates kept as the strings the CLI writes). -/
structure TomlStock where
  name : String
  start_date : String
  end_date : String
  deriving DecidableEq, Repr

/-- Python's `str.upper()` (ASCII characters, as ticker symbols are). -/
def pyUpper (s : String) : String := String.mk (s.data.map Char.toUpper)

/-- The config-mutation core of `add_command`: scan the `stocks` list for the
first entry with `entry['name'].upper() == stock.upper()`; if found, overwrite
its dates (keeping the stored name) and stop; otherwise append a new entry
whose name is `stock.upper()`. -/
def add_or_update_stock (stocks : List TomlStock)
    (stock sd ed : String) : List TomlStock :=
  match stocks with
  | [] => [{ name := pyUpper stock, start_date := sd, end_date := ed }]
  | e :: rest =>
      if pyUpper e.name = pyUpper stock then
        { e with start_date := sd, end_date := ed } :: rest
      else
        e :: add_or_update_stock rest stock sd ed

/-! ## Table-store lemmas -/

namespace Table

variable {α : Type}

theorem filter_upsert {t : Table α} {r : Row α} {p : Row α → Bool}
    (hp : p r = false)
    (hcomp : ∀ x, p x = true → x.key = r.key → x.date = r.date → False) :
    List.filter p (upsert t r) = List.filter p t := by
  unfold upsert
  rw [List.filter_append, List.filter_filter]
  have h1 : List.filter (fun x => decide (x.key = r.key)) [r] = [r] := by simp
  have h2 : List.filter p [r] = [] := by simp [hp]
  rw [h2, List.append_nil]
  apply List.filter_congr
  intro a _
  cases hpa : p a with
  | false => simp
  | true =>
      simp only [Bool.true_and]
      by_cases hk : a.key = r.key
      · by_cases hd : a.date = r.date
        · exact (hcomp a hpa hk hd).elim
        · simp [hk, hd]
      · simp [hk]

theorem filter_erase {t : Table α} {k : String} {d : Int} {p : Row α → Bool}
    (hcomp : ∀ x, p x = true → x.key = k → x.date = d → False) :
    List.filter p (erase t k d) = List.filter p t := by
  unfold erase
  rw [List.filter_filter]
  apply List.filter_congr
  intro a _
  cases hpa : p a with
  | false => simp
  | true =>
      simp only [Bool.true_and]
      by_cases hk : a.key = k
      · by_cases hd : a.date = d
        · exact (hcomp a hpa hk hd).elim
        · simp [hk, hd]
      · simp [hk]

theorem rowsAt_upsert_self (t : Table α) (r : Row α) :
    rowsAt (upsert t r) r.key r.date = [r] := by
  unfold rowsAt upsert
  rw [List.filter_append, List.filter_filter]
  have h1 : List.filter (fun x => decide (x.key = r.key) && decide (x.date = r.date)) [r]
      = [r] := by simp
  have h2 : ∀ (l : List (Row α)),
      List.filter (fun a =>
        (decide (a.key = r.key) && decide (a.date = r.date)) &&
          !(decide (a.key = r.key) && decide (a.date = r.date))) l = [] := by
    intro l
    apply List.filter_eq_nil_iff.2
    intro a _
    simp
  rw [h1, h2]
  rfl

theorem rowsAt_upsert_ne {t : Table α} {r : Row α} {k : String} {d : Int}
    (h : ¬(k = r.key ∧ d = r.date)) :
    rowsAt (upsert t r) k d = rowsAt t k d := by
  unfold rowsAt
  apply filter_upsert
  · by_cases hk : r.key = k
    · by_cases hd : r.date = d
      · exact absurd ⟨hk.symm, hd.symm⟩ h
      · simp [fun hh : r.date = d => hd hh]
    · simp [fun hh : r.key = k => hk hh]
  · intro x hx hk hd
    simp only [Bool.and_eq_true, decide_eq_true_eq] at hx
    exact h ⟨hx.1.symm.trans hk, hx.2.symm.trans hd⟩

theorem rowsFor_upsert_ne {t : Table α} {r : Row α} {k : String}
    (h : r.key ≠ k) :
    rowsFor (upsert t r) k = rowsFor t k := by
  unfold rowsFor
  apply filter_upsert
  · simp [fun hh : r.key = k => h hh]
  · intro x hx hk _
    simp only [decide_eq_true_eq] at hx
    exact h (hk.symm.trans hx)

theorem rowsFor_erase_ne {t : Table α} {k' : String} {d : Int} {k : String}
    (h : k' ≠ k) :
    rowsFor (erase t k' d) k = rowsFor t k := by
  unfold rowsFor
  apply filter_erase
  intro x hx hk _
  simp only [decide_eq_true_eq] at hx
  exact h (hk.symm.trans hx)

theorem olderRows_upsert {t : Table α} {r : Row α} {k : String} {L : Int}
    (h : r.key ≠ k ∨ ¬(r.date < L)) :
    olderRows (upsert t r) k L = olderRows t k L := by
  unfold olderRows
  apply filter_upsert
  · cases h with
    | inl hk => simp [fun hh : r.key = k => hk hh]
    | inr hd => simp [hd]
  · intro x hx hk hd
    simp only [Bool.and_eq_true, decide_eq_true_eq] at hx
    cases h with
    | inl hne => exact hne (hk ▸ hx.1)
    | inr hge => exact hge (hd ▸ hx.2)

theorem olderRows_erase {t : Table α} {k' : String} {d : Int} {k : String}
    {L : Int} (h : k' ≠ k ∨ ¬(d < L)) :
    olderRows (erase t k' d) k L = olderRows t k L := by
  unfold olderRows
  apply filter_erase
  intro x hx hk hd
  simp only [Bool.and_eq_true, decide_eq_true_eq] at hx
  cases h with
  | inl hne => exact hne (hk ▸ hx.1)
  | inr hge => exact hge (hd ▸ hx.2)

theorem Uniq.upsert {t : Table α} (h : Uniq t) (r : Row α) :
    Uniq (Table.upsert t r) := by
  unfold Uniq Table.upsert
  rw [List.pairwise_append]
  refine ⟨h.filter _, List.pairwise_singleton _ _, ?_⟩
  intro a ha b hb hab
  simp only [List.mem_singleton] at hb
  subst hb
  simp only [List.mem_filter, Bool.not_eq_true', Bool.and_eq_false_iff,
    decide_eq_false_iff_not] at ha
  rcases ha.2 with hk | hd
  · exact hk hab.1
  · exact hd hab.2

end Table

namespace Table

theorem le_foldl_max (ds : List Int) : ∀ d : Int, d ≤ List.foldl max d ds := by
  induction ds with
  | nil => intro d; exact le_refl d
  | cons a ds ih =>
      intro d
      exact le_trans (le_max_left d a) (ih (max d a))

theorem mem_le_foldl_max {x : Int} {ds : List Int} (hx : x ∈ ds) :
    ∀ d : Int, x ≤ List.foldl max d ds := by
  induction ds with
  | nil => cases hx
  | cons a ds ih =>
      intro d
      rcases List.mem_cons.1 hx with rfl | hmem
      · exact le_trans (le_max_right d x) (le_foldl_max ds (max d x))
      · exact ih hmem (max d a)

theorem foldl_max_mem (ds : List Int) : ∀ d : Int, List.foldl max d ds ∈ d :: ds := by
  induction ds with
  | nil => intro d; exact List.mem_singleton.2 rfl
  | cons a ds ih =>
      intro d
      have h := ih (max d a)
      rcases List.mem_cons.1 h with hh | hh
      · rcases max_choice d a with hc | hc
        · exact List.mem_cons.2 (Or.inl (hh.trans hc))
        · simp only [List.foldl_cons]
          rw [hh, hc]
          exact List.mem_cons.2 (Or.inr (List.mem_cons.2 (Or.inl rfl)))
      · exact List.mem_cons.2 (Or.inr (List.mem_cons.2 (Or.inr hh)))

theorem latestDate_mem {α : Type} {t : Table α} {k : String} {M : Int}
    (h : latestDate t k = some M) : M ∈ datesFor t k := by
  unfold latestDate at h
  rcases hd : datesFor t k with _ | ⟨d, ds⟩
  · rw [hd] at h; cases h
  · rw [hd] at h
    have hM : List.foldl max d ds = M := by
      injection h
    rw [← hM]
    exact foldl_max_mem ds d

theorem le_latestDate_of_mem {α : Type} {t : Table α} {k : String} {x : Int}
    (h : x ∈ datesFor t k) : ∃ M, latestDate t k = some M ∧ x ≤ M := by
  unfold latestDate
  rcases hd : datesFor t k with _ | ⟨d, ds⟩
  · rw [hd] at h; cases h
  · refine ⟨List.foldl max d ds, rfl, ?_⟩
    rw [hd] at h
    rcases List.mem_cons.1 h with rfl | hmem
    · exact le_foldl_max ds x
    · exact mem_le_foldl_max hmem d

theorem latestDate_none_of_rowsFor_nil {α : Type} {t : Table α} {k : String}
    (h : rowsFor t k = []) : latestDate t k = none := by
  unfold latestDate datesFor
  rw [h]
  rfl

theorem latestDate_congr {α : Type} {t t' : Table α} {k : String}
    (h : rowsFor t k = rowsFor t' k) : latestDate t k = latestDate t' k := by
  unfold latestDate datesFor
  rw [h]

theorem mem_datesFor {α : Type} {t : Table α} {k : String} {M : Int} :
    M ∈ datesFor t k ↔ ∃ x, x ∈ t ∧ x.key = k ∧ x.date = M := by
  unfold datesFor rowsFor
  simp only [List.mem_map, List.mem_filter, decide_eq_true_eq]
  constructor
  · rintro ⟨x, ⟨hx, hk⟩, hd⟩
    exact ⟨x, hx, hk, hd⟩
  · rintro ⟨x, hx, hk, hd⟩
    exact ⟨x, ⟨hx, hk⟩, hd⟩

theorem mem_datesFor_upsert {α : Type} {t : Table α} {k : String} {M : Int}
    (r : Row α) (h : M ∈ datesFor t k) : M ∈ datesFor (upsert t r) k := by
  rcases mem_datesFor.1 h with ⟨x, hx, hk, hd⟩
  by_cases hpair : x.key = r.key ∧ x.date = r.date
  · refine mem_datesFor.2 ⟨r, ?_, hpair.1 ▸ hk, hpair.2 ▸ hd⟩
    unfold upsert
    exact List.mem_append.2 (Or.inr (List.mem_singleton.2 rfl))
  · refine mem_datesFor.2 ⟨x, ?_, hk, hd⟩
    unfold upsert
    refine List.mem_append.2 (Or.inl (List.mem_filter.2 ⟨hx, ?_⟩))
    simp only [Bool.not_eq_eq_eq_not, Bool.not_true, Bool.and_eq_false_iff,
      decide_eq_false_iff_not]
    by_cases hkk : x.key = r.key
    · exact Or.inr (fun hdd => hpair ⟨hkk, hdd⟩)
    · exact Or.inl hkk

theorem olderRows_eq_of_rowsFor_eq {α : Type} {t t' : Table α} {k : String}
    {L : Int} (h : rowsFor t k = rowsFor t' k) :
    olderRows t k L = olderRows t' k L := by
  have hform : ∀ (s : Table α),
      olderRows s k L = List.filter (fun x => decide (x.date < L)) (rowsFor s k) := by
    intro s
    unfold olderRows rowsFor
    rw [List.filter_filter]
    apply List.filter_congr
    intro a _
    cases hk : decide (a.key = k) <;> simp [hk, Bool.and_comm]
  rw [hform, hform, h]

end Table

/-! ## Series-insertion lemmas -/

theorem rowsFor_stockFold_ne {k : String} (name : String)
    (data : List (Int × Price)) (hne : name ≠ k) :
    ∀ t : Table StockMetrics,
      Table.rowsFor
        (List.foldl (fun acc p => Table.upsert acc (stockRowOf name p)) t data) k
        = Table.rowsFor t k := by
  induction data with
  | nil => intro t; rfl
  | cons p data ih =>
      intro t
      simp only [List.foldl_cons]
      rw [ih, Table.rowsFor_upsert_ne hne]

theorem olderRows_stockFold {k : String} {L : Int} (name : String)
    (data : List (Int × Price))
    (h : ∀ p ∈ data, name ≠ k ∨ L ≤ p.1) :
    ∀ t : Table StockMetrics,
      Table.olderRows
        (List.foldl (fun acc p => Table.upsert acc (stockRowOf name p)) t data) k L
        = Table.olderRows t k L := by
  induction data with
  | nil => intro t; rfl
  | cons p data ih =>
      intro t
      simp only [List.foldl_cons]
      rw [ih (fun q hq => h q (List.mem_cons.2 (Or.inr hq)))]
      apply Table.olderRows_upsert
      rcases h p (List.mem_cons.2 (Or.inl rfl)) with hk | hd
      · exact Or.inl hk
      · exact Or.inr (not_lt.2 hd)

theorem mem_datesFor_stockFold {k : String} {M : Int} (name : String)
    (data : List (Int × Price)) :
    ∀ t : Table StockMetrics, M ∈ Table.datesFor t k →
      M ∈ Table.datesFor
        (List.foldl (fun acc p => Table.upsert acc (stockRowOf name p)) t data) k := by
  induction data with
  | nil => intro t h; exact h
  | cons p data ih =>
      intro t h
      simp only [List.foldl_cons]
      exact ih _ (Table.mem_datesFor_upsert _ h)

/-- Folding a step function that fixes `t` over any entry list leaves `t`. -/
theorem foldl_fixed {β γ : Type} {f : β → γ → β} {t : β} :
    ∀ l : List γ, (∀ e ∈ l, f t e = t) → List.foldl f t l = t := by
  intro l
  induction l with
  | nil => intro _; rfl
  | cons e l ih =>
      intro h
      simp only [List.foldl_cons]
      rw [h e (List.mem_cons.2 (Or.inl rfl))]
      exact ih (fun e' he' => h e' (List.mem_cons.2 (Or.inr he')))

/-! ## Gap-detection claims -/

theorem stockGapScan_zip (dates : List Int) :
    stockGapScan dates
      = List.map (fun p => (p.1 + 1, p.2 - 1))
          (List.filter (fun p => p.2 - p.1 > 1) (List.zip dates dates.tail)) := by
  induction dates with
  | nil => rfl
  | cons a rest ih =>
      cases rest with
      | nil => rfl
      | cons b rest' =>
          rw [stockGapScan]
          rw [ih]
          simp only [List.tail_cons, List.zip_cons_cons, List.filter_cons]
          by_cases h : b - a > 1
          · simp [h]
          · simp [h]

theorem debtGapScan_eq_stockGapScan (dates : List Int) :
    debtGapScan dates = stockGapScan dates := by
  induction dates with
  | nil => rfl
  | cons a rest ih =>
      cases rest with
      | nil => rfl
      | cons b rest' =>
          rw [debtGapScan, stockGapScan, ih]

/-- C3: for every sequence of stored dates, gap detection emits, for each
consecutive pair whose difference exceeds one calendar day, exactly the range
`(previous + 1 day, next - 1 day)`, in order, and nothing else; for the stored
dates 2023-01-01, 2023-01-02, 2023-01-04 it reports exactly the single range
(2023-01-03, 2023-01-03). -/
theorem claim_C3_gap_detection :
    (∀ dates : List Int,
      get_missing_date_ranges_stock dates
        = List.map (fun p => (p.1 + 1, p.2 - 1))
            (List.filter (fun p => p.2 - p.1 > 1) (List.zip dates dates.tail)))
    ∧ get_missing_date_ranges_stock
        [dateVal 2023 1 1, dateVal 2023 1 2, dateVal 2023 1 4]
      = [(dateVal 2023 1 3, dateVal 2023 1 3)] := by
  constructor
  · intro dates
    cases dates with
    | nil => rfl
    | cons a rest => exact stockGapScan_zip (a :: rest)
  · decide

/-- C10: the stock gap-detection routine and the national-debt gap-detection
routine compute extensionally equal functions: on every list of stored dates
they return the same list of missing ranges. -/
theorem claim_C10_gap_routines_equal :
    ∀ dates : List Int,
      get_missing_date_ranges_stock dates = get_missing_date_ranges_debt dates := by
  intro dates
  cases dates with
  | nil => rfl
  | cons a rest =>
      show stockGapScan (a :: rest) = debtGapScan (a :: rest)
      rw [debtGapScan_eq_stockGapScan]

/-! ## Nation-proxy-resolution claim -/

/-- C8: resolving a nation code to a proxy instrument never fails: a code in
`TREASURY_SYMBOLS` maps via the table, and every other code yields the default
proxy symbol `"^TNX"`. -/
theorem claim_C8_nation_fallback :
    ∀ nation : String,
      (TREASURY_SYMBOLS.lookup nation = none → resolveNationProxy nation = "^TNX")
      ∧ (∀ s, TREASURY_SYMBOLS.lookup nation = some s →
          resolveNationProxy nation = s) := by
  intro nation
  constructor
  · intro h
    unfold resolveNationProxy
    rw [h]
    rfl
  · intro s h
    unfold resolveNationProxy
    rw [h]
    rfl

/-- Witness for C8 at the unrecognized code "FR" and the recognized code "US". -/
theorem claim_C8_nation_fallback_witness :
    resolveNationProxy "FR" = "^TNX" ∧ resolveNationProxy "US" = "^TNX" :=
  ⟨(claim_C8_nation_fallback "FR").1 (by decide),
   (claim_C8_nation_fallback "US").2 "^TNX" (by decide)⟩

/-! ## P/E snapshot claim -/

/-- C9: every price bar built by one `capture_stock` call carries the same
trailing-P/E snapshot; when the provider supplies no usable trailing P/E the
snapshot is the NaN sentinel, and the NaN sentinel is persisted as SQL NULL. -/
theorem claim_C9_pe_snapshot :
    ∀ (hist : HistOracle) (peInfo : String → PEInfo) (name : String) (start : Int),
      List.map (fun p => p.2.pe) (capture_stock hist peInfo name start).data
        = List.replicate (hist name start).length (peSnapshot (peInfo name))
      ∧ peSnapshot PEInfo.absent = PEVal.nan
      ∧ peSnapshot PEInfo.nonNum = PEVal.nan
      ∧ storedPE PEVal.nan = none := by
  intro hist peInfo name start
  refine ⟨?_, rfl, rfl, rfl⟩
  simp [capture_stock, List.map_map, Function.comp_def, List.map_const']

/-! ## Upsert-sequence lemmas for the uniqueness claim -/

namespace Table

theorem rowsAt_foldl_untouched {α : Type} {k : String} {d : Int}
    (ops : List (Row α)) (h : ∀ r ∈ ops, ¬(r.key = k ∧ r.date = d)) :
    ∀ t : Table α, rowsAt (List.foldl upsert t ops) k d = rowsAt t k d := by
  induction ops with
  | nil => intro t; rfl
  | cons r rest ih =>
      intro t
      simp only [List.foldl_cons]
      rw [ih (fun r' hr' => h r' (List.mem_cons.2 (Or.inr hr')))]
      apply rowsAt_upsert_ne
      intro hpair
      exact h r (List.mem_cons.2 (Or.inl rfl)) ⟨hpair.1.symm, hpair.2.symm⟩

theorem uniq_foldl_upsert {α : Type} (ops : List (Row α)) :
    ∀ t : Table α, Uniq t → Uniq (List.foldl Table.upsert t ops) := by
  induction ops with
  | nil => intro t h; exact h
  | cons r rest ih =>
      intro t h
      simp only [List.foldl_cons]
      exact ih _ (h.upsert r)

theorem rowsAt_foldl_last {α : Type} {k : String} {d : Int} {v : Row α}
    (ops : List (Row α)) :
    ∀ t : Table α,
      (List.filter (fun r => r.key = k && r.date = d) ops).getLast? = some v →
      rowsAt (List.foldl upsert t ops) k d = [v] := by
  induction ops with
  | nil => intro t h; simp at h
  | cons r rest ih =>
      intro t h
      simp only [List.foldl_cons]
      by_cases hpr : r.key = k ∧ r.date = d
      · rw [List.filter_cons_of_pos
          (by simp only [Bool.and_eq_true, decide_eq_true_eq]; exact hpr)] at h
        by_cases hrest : List.filter (fun r => r.key = k && r.date = d) rest = []
        · rw [hrest] at h
          simp only [List.getLast?_singleton, Option.some.injEq] at h
          subst h
          rw [rowsAt_foldl_untouched rest (fun r' hr' hpair => by
              have hmem := List.filter_eq_nil_iff.1 hrest r' hr'
              simp [hpair.1, hpair.2] at hmem)]
          rw [← hpr.1, ← hpr.2]
          exact rowsAt_upsert_self t r
        · rcases hl : List.filter (fun r => r.key = k && r.date = d) rest
            with _ | ⟨x, xs⟩
          · exact absurd hl hrest
          · rw [hl, List.getLast?_cons_cons] at h
            exact ih _ (by rw [hl]; exact h)
      · rw [List.filter_cons_of_neg
          (by simp only [Bool.and_eq_true, decide_eq_true_eq]; exact hpr)] at h
        exact ih _ h

end Table

/-- C2: after any sequence of upserts on a table whose rows are unique per
(key, date), at most one row exists per (key, date) pair, and for a pair that
was upserted the stored row is exactly the full row of the last upsert for that
pair. -/
theorem claim_C2_upsert_last_wins (α : Type) (t : Table α) (ops : List (Row α))
    (k : String) (d : Int) (hu : Table.Uniq t) :
    Table.Uniq (List.foldl Table.upsert t ops)
    ∧ ∀ v, (List.filter (fun r => r.key = k && r.date = d) ops).getLast? = some v →
        Table.rowsAt (List.foldl Table.upsert t ops) k d = [v] :=
  ⟨Table.uniq_foldl_upsert ops t hu,
   fun _ h => Table.rowsAt_foldl_last ops t h⟩

/-- Witness for C2: two upserts for ("K", 1) on the empty table leave exactly
the second row. -/
theorem claim_C2_upsert_last_wins_witness :
    Table.Uniq (List.foldl Table.upsert ([] : Table ℚ)
      [⟨"K", 1, 3⟩, ⟨"K", 1, 4⟩])
    ∧ Table.rowsAt (List.foldl Table.upsert ([] : Table ℚ)
        [⟨"K", 1, 3⟩, ⟨"K", 1, 4⟩]) "K" 1 = [⟨"K", 1, 4⟩] :=
  ⟨(claim_C2_upsert_last_wins ℚ [] [⟨"K", 1, 3⟩, ⟨"K", 1, 4⟩] "K" 1
      List.Pairwise.nil).1,
   (claim_C2_upsert_last_wins ℚ [] [⟨"K", 1, 3⟩, ⟨"K", 1, 4⟩] "K" 1
      List.Pairwise.nil).2 ⟨"K", 1, 4⟩ (by decide)⟩

/-! ## Add-command claims -/

/-- C7 counterexample: with a (manually edited) tracked entry whose stored key
is the lower-case "aapl", adding "AAPL" matches it case-insensitively and
updates it in place, but the written entry's key stays "aapl" — it is not
upper-cased on write, contradicting "after any add the written entry's key is
upper-cased". -/
theorem claim_C7_counterexample :
    add_or_update_stock [⟨"aapl", "2020-01-01", "2020-12-31"⟩] "AAPL"
        "2021-01-01" "2021-06-30"
      = [⟨"aapl", "2021-01-01", "2021-06-30"⟩]
    ∧ "aapl" ≠ pyUpper "aapl" := by
  exact ⟨by decide, by decide⟩

/-- C7 (amended): the Add operation matches tracked stock keys
case-insensitively: when some entry matches, the first matching entry is
updated in place and no entry is appended; adding "aapl" while "AAPL" is
tracked updates the existing "AAPL" entry; and when no entry matches, the
newly appended entry's key is upper-cased (an updated entry keeps its
previously stored key). -/
theorem claim_C7_add_case_insensitive :
    ∀ (stocks : List TomlStock) (stock sd ed s0 e0 : String),
      ((stocks.any fun e => pyUpper e.name == pyUpper stock) = true →
        (add_or_update_stock stocks stock sd ed).length = stocks.length)
      ∧ ((stocks.any fun e => pyUpper e.name == pyUpper stock) = false →
        add_or_update_stock stocks stock sd ed
          = stocks ++ [⟨pyUpper stock, sd, ed⟩])
      ∧ add_or_update_stock [⟨"AAPL", s0, e0⟩] "aapl" sd ed
          = [⟨"AAPL", sd, ed⟩] := by
  intro stocks stock sd ed s0 e0
  refine ⟨?_, ?_, ?_⟩
  · induction stocks with
    | nil => intro h; simp at h
    | cons e rest ih =>
        intro h
        rw [add_or_update_stock]
        by_cases he : pyUpper e.name = pyUpper stock
        · rw [if_pos he]
          rfl
        · rw [if_neg he]
          simp only [List.length_cons]
          rw [ih ?_]
          simp only [List.any_cons, Bool.or_eq_true, beq_iff_eq] at h
          rcases h with h | h
          · exact absurd h he
          · simpa using h
  · induction stocks with
    | nil => intro _; rfl
    | cons e rest ih =>
        intro h
        simp only [List.any_cons, Bool.or_eq_false_iff, beq_eq_false_iff_ne] at h
        rw [add_or_update_stock, if_neg h.1]
        rw [List.cons_append]
        congr 1
        exact ih h.2
  · rw [add_or_update_stock,
      if_pos (show pyUpper "AAPL" = pyUpper "aapl" by decide)]

/-- Witness for C7 at a matching and at a non-matching configuration. -/
theorem claim_C7_add_case_insensitive_witness :
    (add_or_update_stock [⟨"AAPL", "a", "b"⟩] "aapl" "s" "e").length = 1
    ∧ add_or_update_stock [⟨"MSFT", "a", "b"⟩] "aapl" "s" "e"
        = [⟨"MSFT", "a", "b"⟩] ++ [⟨pyUpper "aapl", "s", "e"⟩] :=
  ⟨(claim_C7_add_case_insensitive [⟨"AAPL", "a", "b"⟩] "aapl" "s" "e" "x" "y").1
      (by decide),
   (claim_C7_add_case_insensitive [⟨"MSFT", "a", "b"⟩] "aapl" "s" "e" "x" "y").2.1
      (by decide)⟩

/-! ## Incremental append on a key with no stored rows (C1) -/

/-- A concrete provider oracle: one bar, on the requested start day, for every
symbol. -/
def oneBarHist : HistOracle := fun _ s =>
  [(s, { «open» := 1, close := 2, low := 0, high := 3, volume := 5 })]

/-- A concrete info oracle: no usable trailing P/E for any symbol. -/
def absentPE : String → PEInfo := fun _ => PEInfo.absent

/-- A concrete configuration tracking the single stock "AAPL" from
2023-01-01. -/
def aaplConfig : Config :=
  { stocks := [{ name := "AAPL", start_date := dateVal 2023 1 1, end_date := none }]
    national_debt := [] }

/-- C1 counterexample: the tracked key "AAPL" has no stored row, the provider
would return one point when fetched from the configured start date, yet
`update_missing_data` leaves the database unchanged — the key is skipped, and
no fetched point is upserted, contradicting "behaves as full capture". -/
theorem claim_C1_counterexample :
    Table.rowsFor emptyDB.stocks "AAPL" = []
    ∧ (capture_stock oneBarHist absentPE "AAPL" (dateVal 2023 1 1)).data.length = 1
    ∧ update_missing_data oneBarHist absentPE aaplConfig emptyDB = emptyDB :=
  ⟨rfl, rfl, rfl⟩

/-- C1 (amended): a tracked key with no row yet stored is skipped by the
incremental-append update: the run performs no upserts for it, so after the
run the key still has no stored rows. -/
theorem claim_C1_amended_skip_empty_key :
    ∀ (hist : HistOracle) (peInfo : String → PEInfo) (cfg : Config) (db : DB)
      (k : String),
      Table.rowsFor db.stocks k = [] →
      Table.rowsFor (update_missing_data hist peInfo cfg db).stocks k = [] := by
  intro hist peInfo cfg db k h
  show Table.rowsFor
    (List.foldl (updateMissingStockStep hist peInfo) db.stocks cfg.stocks) k = []
  generalize db.stocks = t at h ⊢
  induction cfg.stocks generalizing t with
  | nil => exact h
  | cons e l ih =>
      simp only [List.foldl_cons]
      apply ih
      unfold updateMissingStockStep
      cases hl : Table.latestDate t e.name with
      | none => exact h
      | some L =>
          by_cases hk : e.name = k
          · rw [hk, Table.latestDate_none_of_rowsFor_nil h] at hl
            cases hl
          · show Table.rowsFor (List.foldl
                (fun acc p => Table.upsert acc
                  (stockRowOf (capture_stock hist peInfo e.name (L + 1)).name p))
                t (capture_stock hist peInfo e.name (L + 1)).data) k = []
            rw [rowsFor_stockFold_ne (capture_stock hist peInfo e.name (L + 1)).name
              (capture_stock hist peInfo e.name (L + 1)).data hk t]
            exact h

/-- Witness for C1 (amended): a database holding only a "TSLA" row has no
"AAPL" rows, and still has none after the update run. -/
theorem claim_C1_amended_skip_empty_key_witness :
    Table.rowsFor (update_missing_data oneBarHist absentPE aaplConfig
      { stocks := [⟨"TSLA", 5, ⟨1, 2, 3, 0, 9, none⟩⟩], national_debt := [] }).stocks
      "AAPL" = [] :=
  claim_C1_amended_skip_empty_key oneBarHist absentPE aaplConfig
    { stocks := [⟨"TSLA", 5, ⟨1, 2, 3, 0, 9, none⟩⟩], national_debt := [] }
    "AAPL" rfl

/-! ## Append-only boundary of incremental append (C4) -/

theorem capture_stock_dates {hist : HistOracle} {peInfo : String → PEInfo}
    {name : String} {start : Int}
    (hh : ∀ p ∈ hist name start, start ≤ p.1) :
    ∀ p ∈ (capture_stock hist peInfo name start).data, start ≤ p.1 := by
  intro p hp
  simp only [capture_stock, List.mem_map] at hp
  rcases hp with ⟨q, hq, rfl⟩
  exact hh q hq

theorem updateMissing_fold_frame (hist : HistOracle) (peInfo : String → PEInfo)
    {k : String} {L : Int}
    (hh : ∀ (name : String) (start : Int), ∀ p ∈ hist name start, start ≤ p.1) :
    ∀ (l : List ConfigEntry) (t : Table StockMetrics),
      (∃ M, Table.latestDate t k = some M ∧ L ≤ M) →
      Table.olderRows (List.foldl (updateMissingStockStep hist peInfo) t l) k L
        = Table.olderRows t k L := by
  intro l
  induction l with
  | nil => intro t _; rfl
  | cons e l ih =>
      intro t hM
      rcases hM with ⟨M, hMeq, hLM⟩
      simp only [List.foldl_cons]
      have hstep : Table.olderRows (updateMissingStockStep hist peInfo t e) k L
          = Table.olderRows t k L := by
        unfold updateMissingStockStep
        cases hl : Table.latestDate t e.name with
        | none => rfl
        | some A =>
            show Table.olderRows (List.foldl
              (fun acc p => Table.upsert acc
                (stockRowOf (capture_stock hist peInfo e.name (A + 1)).name p))
              t (capture_stock hist peInfo e.name (A + 1)).data) k L = _
            apply olderRows_stockFold
            intro p hp
            by_cases hk : e.name = k
            · refine Or.inr ?_
              have hA : A = M := by
                rw [hk] at hl
                rw [hl] at hMeq
                injection hMeq
              have := capture_stock_dates (hh e.name (A + 1)) p hp
              omega
            · exact Or.inl hk
      have hlat : ∃ M', Table.latestDate (updateMissingStockStep hist peInfo t e) k
          = some M' ∧ L ≤ M' := by
        unfold updateMissingStockStep
        cases hl : Table.latestDate t e.name with
        | none => exact ⟨M, hMeq, hLM⟩
        | some A =>
            have hmem : M ∈ Table.datesFor
                (upsertStockSeries t (capture_stock hist peInfo e.name (A + 1))) k := by
              exact mem_datesFor_stockFold _ _ t (Table.latestDate_mem hMeq)
            rcases Table.le_latestDate_of_mem hmem with ⟨M', hM', hle⟩
            exact ⟨M', hM', le_trans hLM hle⟩
      rw [ih _ hlat, hstep]

/-- C4: when a tracked stock key has a latest stored date before an
incremental-append run and the provider only returns bars at or after the
requested start, the run fetches from `latest + 1` and leaves every row of the
key dated strictly before the pre-run latest date unmodified and unremoved. -/
theorem claim_C4_append_only_boundary
    (hist : HistOracle) (peInfo : String → PEInfo) (cfg : Config) (db : DB)
    (k : String) (L : Int)
    (hh : ∀ (name : String) (start : Int), ∀ p ∈ hist name start, start ≤ p.1)
    (hL : Table.latestDate db.stocks k = some L) :
    Table.olderRows (update_missing_data hist peInfo cfg db).stocks k L
      = Table.olderRows db.stocks k L
    ∧ ∀ (t : Table StockMetrics) (e : ConfigEntry) (A : Int),
        Table.latestDate t e.name = some A →
        updateMissingStockStep hist peInfo t e
          = upsertStockSeries t (capture_stock hist peInfo e.name (A + 1)) := by
  constructor
  · exact updateMissing_fold_frame hist peInfo hh cfg.stocks db.stocks ⟨L, hL, le_refl L⟩
  · intro t e A hA
    unfold updateMissingStockStep
    rw [hA]

/-- A concrete database holding a single "TSLA" row dated day 5. -/
def tslaDB : DB :=
  { stocks := [⟨"TSLA", 5, ⟨1, 2, 3, 0, 9, none⟩⟩], national_debt := [] }

/-- Witness for C4 on the one-row "TSLA" database. -/
theorem claim_C4_append_only_boundary_witness :
    Table.olderRows (update_missing_data oneBarHist absentPE aaplConfig tslaDB).stocks
        "TSLA" 5
      = Table.olderRows tslaDB.stocks "TSLA" 5 :=
  (claim_C4_append_only_boundary oneBarHist absentPE aaplConfig tslaDB "TSLA" 5
    (by
      intro name start p hp
      simp only [oneBarHist, List.mem_singleton] at hp
      rw [hp])
    rfl).1

/-! ## Destructive-refresh scope (C5) -/

theorem rowsFor_updateDataStockStep_ne (hist : HistOracle)
    (peInfo : String → PEInfo) {k : String} {t : Table StockMetrics}
    {e : ConfigEntry} (hk : e.name ≠ k) :
    Table.rowsFor (updateDataStockStep hist peInfo t e) k = Table.rowsFor t k := by
  unfold updateDataStockStep update_stock_preprocess process_stock_data
  cases hl : Table.latestDate t e.name with
  | none =>
      show Table.rowsFor (List.foldl
        (fun acc p => Table.upsert acc
          (stockRowOf (capture_stock hist peInfo e.name e.start_date).name p))
        t (capture_stock hist peInfo e.name e.start_date).data) k = _
      exact rowsFor_stockFold_ne _ _ hk t
  | some A =>
      have h1 := rowsFor_stockFold_ne (capture_stock hist peInfo e.name A).name
        (capture_stock hist peInfo e.name A).data hk (Table.erase t e.name A)
      show Table.rowsFor (List.foldl
        (fun acc p => Table.upsert acc
          (stockRowOf (capture_stock hist peInfo e.name A).name p))
        (Table.erase t e.name A) (capture_stock hist peInfo e.name A).data) k = _
      rw [h1]
      exact Table.rowsFor_erase_ne hk

theorem rowsFor_updateData_fold_ne (hist : HistOracle)
    (peInfo : String → PEInfo) {k : String} (l : List ConfigEntry)
    (hl : ∀ e ∈ l, e.name ≠ k) :
    ∀ t : Table StockMetrics,
      Table.rowsFor (List.foldl (updateDataStockStep hist peInfo) t l) k
        = Table.rowsFor t k := by
  induction l with
  | nil => intro t; rfl
  | cons e l ih =>
      intro t
      simp only [List.foldl_cons]
      rw [ih (fun e' he' => hl e' (List.mem_cons.2 (Or.inr he')))]
      exact rowsFor_updateDataStockStep_ne hist peInfo
        (hl e (List.mem_cons.2 (Or.inl rfl)))

theorem olderRows_updateDataStockStep_self (hist : HistOracle)
    (peInfo : String → PEInfo) {k : String} {L : Int} {t : Table StockMetrics}
    {e : ConfigEntry} (_hk : e.name = k)
    (hh : ∀ (name : String) (start : Int), ∀ p ∈ hist name start, start ≤ p.1)
    (hL : Table.latestDate t e.name = some L) :
    Table.olderRows (updateDataStockStep hist peInfo t e) k L
      = Table.olderRows t k L := by
  unfold updateDataStockStep update_stock_preprocess process_stock_data
  rw [hL]
  show Table.olderRows (List.foldl
    (fun acc p => Table.upsert acc
      (stockRowOf (capture_stock hist peInfo e.name L).name p))
    (Table.erase t e.name L) (capture_stock hist peInfo e.name L).data) k L = _
  rw [olderRows_stockFold _ _ (fun p hp =>
    Or.inr (capture_stock_dates (hh e.name L) p hp))]
  exact Table.olderRows_erase (Or.inr (lt_irrefl L))

theorem updateData_fold_frame (hist : HistOracle) (peInfo : String → PEInfo)
    {k : String} {L : Int}
    (hh : ∀ (name : String) (start : Int), ∀ p ∈ hist name start, start ≤ p.1) :
    ∀ (l : List ConfigEntry) (t : Table StockMetrics),
      (List.filter (fun e => e.name = k) l).length ≤ 1 →
      Table.latestDate t k = some L →
      Table.olderRows (List.foldl (updateDataStockStep hist peInfo) t l) k L
        = Table.olderRows t k L := by
  intro l
  induction l with
  | nil => intro t _ _; rfl
  | cons e l ih =>
      intro t hcount hlat
      simp only [List.foldl_cons]
      by_cases hk : e.name = k
      · have hfil : List.filter (fun e => e.name = k) (e :: l)
            = e :: List.filter (fun e => e.name = k) l := by
          rw [List.filter_cons_of_pos (by simp [hk])]
        rw [hfil, List.length_cons] at hcount
        have hrest : ∀ e' ∈ l, e'.name ≠ k := by
          intro e' he'
          have h0 : (List.filter (fun e => e.name = k) l).length = 0 := by omega
          have h1 := List.length_eq_zero.1 h0
          intro hc
          have := List.filter_eq_nil_iff.1 h1 e' he'
          simp [hc] at this
        have hstep := olderRows_updateDataStockStep_self hist peInfo hk hh
          (hk ▸ hlat)
        rw [← hstep]
        apply Table.olderRows_eq_of_rowsFor_eq
        exact rowsFor_updateData_fold_ne hist peInfo l hrest _
      · have hfil : List.filter (fun e => e.name = k) (e :: l)
            = List.filter (fun e => e.name = k) l := by
          rw [List.filter_cons_of_neg (by simp [hk])]
        rw [hfil] at hcount
        have hrows := rowsFor_updateDataStockStep_ne hist peInfo
          (t := t) (e := e) hk
        have hlat' : Table.latestDate (updateDataStockStep hist peInfo t e) k
            = some L := by
          rw [Table.latestDate_congr hrows]
          exact hlat
        rw [ih _ hcount hlat']
        exact Table.olderRows_eq_of_rowsFor_eq hrows

/-- C5: for a tracked stock key with a latest stored date, destructive refresh
deletes exactly the single row at that date (a delete removes only rows at the
given (key, date) pair, never a range), re-fetches from that same date, and —
when the key is tracked at most once and the provider only returns bars at or
after the requested start — leaves every pre-existing row of the key dated
strictly before the prior latest date unchanged. -/
theorem claim_C5_destructive_refresh_scope
    (hist : HistOracle) (peInfo : String → PEInfo) (cfg : Config) (db : DB)
    (k : String) (L : Int)
    (hh : ∀ (name : String) (start : Int), ∀ p ∈ hist name start, start ≤ p.1)
    (hcount : (List.filter (fun e => e.name = k) cfg.stocks).length ≤ 1)
    (hL : Table.latestDate db.stocks k = some L) :
    Table.olderRows (update_data hist peInfo cfg db).stocks k L
      = Table.olderRows db.stocks k L
    ∧ (∀ (t : Table StockMetrics) (e : ConfigEntry) (A : Int),
        Table.latestDate t e.name = some A →
        updateDataStockStep hist peInfo t e
          = upsertStockSeries (Table.erase t e.name A)
              (capture_stock hist peInfo e.name A))
    ∧ (∀ (t : Table StockMetrics) (k' : String) (d : Int) (r : Row StockMetrics),
        r ∈ t → r ∉ Table.erase t k' d → r.key = k' ∧ r.date = d) := by
  refine ⟨?_, ?_, ?_⟩
  · exact updateData_fold_frame hist peInfo hh cfg.stocks db.stocks hcount hL
  · intro t e A hA
    unfold updateDataStockStep update_stock_preprocess process_stock_data
    rw [hA]
  · intro t k' d r hr hnot
    by_contra hcon
    apply hnot
    unfold Table.erase
    refine List.mem_filter.2 ⟨hr, ?_⟩
    simp only [Bool.not_eq_eq_eq_not, Bool.not_true, Bool.and_eq_false_iff,
      decide_eq_false_iff_not]
    by_cases hkk : r.key = k'
    · exact Or.inr (fun hdd => hcon ⟨hkk, hdd⟩)
    · exact Or.inl hkk

/-- Witness for C5 on the one-row "TSLA" database. -/
theorem claim_C5_destructive_refresh_scope_witness :
    Table.olderRows (update_data oneBarHist absentPE aaplConfig tslaDB).stocks
        "TSLA" 5
      = Table.olderRows tslaDB.stocks "TSLA" 5 :=
  (claim_C5_destructive_refresh_scope oneBarHist absentPE aaplConfig tslaDB
    "TSLA" 5
    (by
      intro name start p hp
      simp only [oneBarHist, List.mem_singleton] at hp
      rw [hp])
    (by decide)
    rfl).1

/-! ## Incremental idempotence (C6) -/

theorem updateMissingStockStep_fixed (hist : HistOracle)
    (peInfo : String → PEInfo) {t : Table StockMetrics} {e : ConfigEntry}
    (h : ∀ A, Table.latestDate t e.name = some A → hist e.name (A + 1) = []) :
    updateMissingStockStep hist peInfo t e = t := by
  unfold updateMissingStockStep
  cases hl : Table.latestDate t e.name with
  | none => rfl
  | some A =>
      show upsertStockSeries t (capture_stock hist peInfo e.name (A + 1)) = t
      unfold upsertStockSeries capture_stock
      rw [h A hl]
      rfl

theorem updateMissingDebtStep_fixed (hist : HistOracle)
    {t : Table ℚ} {e : ConfigEntry}
    (h : ∀ A, Table.latestDate t e.name = some A →
      hist (resolveNationProxy e.name) (A + 1) = []) :
    updateMissingDebtStep hist t e = t := by
  unfold updateMissingDebtStep
  cases hl : Table.latestDate t e.name with
  | none => rfl
  | some A =>
      show upsertDebtSeries t e.name (capture_national_debt hist e.name (A + 1)) = t
      unfold upsertDebtSeries capture_national_debt
      rw [h A hl]
      rfl

/-- C6: when, after one incremental-append run, the provider has no data past
what the store holds (every fetch the second run would issue returns the empty
series), running incremental append a second time leaves the store state
exactly as after the first run: no row is added, removed or changed. -/
theorem claim_C6_incremental_idempotence
    (hist : HistOracle) (peInfo : String → PEInfo) (cfg : Config) (db : DB)
    (hstock : ∀ e ∈ cfg.stocks, ∀ A,
      Table.latestDate (update_missing_data hist peInfo cfg db).stocks e.name
        = some A → hist e.name (A + 1) = [])
    (hdebt : ∀ e ∈ cfg.national_debt, ∀ A,
      Table.latestDate (update_missing_data hist peInfo cfg db).national_debt e.name
        = some A → hist (resolveNationProxy e.name) (A + 1) = []) :
    update_missing_data hist peInfo cfg (update_missing_data hist peInfo cfg db)
      = update_missing_data hist peInfo cfg db := by
  have hs : List.foldl (updateMissingStockStep hist peInfo)
      (update_missing_data hist peInfo cfg db).stocks cfg.stocks
      = (update_missing_data hist peInfo cfg db).stocks :=
    foldl_fixed cfg.stocks (fun e he =>
      updateMissingStockStep_fixed hist peInfo (hstock e he))
  have hd : List.foldl (updateMissingDebtStep hist)
      (update_missing_data hist peInfo cfg db).national_debt cfg.national_debt
      = (update_missing_data hist peInfo cfg db).national_debt :=
    foldl_fixed cfg.national_debt (fun e he =>
      updateMissingDebtStep_fixed hist (hdebt e he))
  show ({ stocks := _, national_debt := _ } : DB) = _
  rw [hs, hd]

/-- A provider oracle that never returns data. -/
def emptyHist : HistOracle := fun _ _ => []

/-- Witness for C6 with a provider that has no further data. -/
theorem claim_C6_incremental_idempotence_witness :
    update_missing_data emptyHist absentPE aaplConfig
        (update_missing_data emptyHist absentPE aaplConfig tslaDB)
      = update_missing_data emptyHist absentPE aaplConfig tslaDB :=
  claim_C6_incremental_idempotence emptyHist absentPE aaplConfig tslaDB
    (fun _ _ _ _ => rfl) (fun _ _ _ _ => rfl)
